import Mathlib

/-!
Verification development for the uigen repository.

The first part embeds the chat tool-call badge component
(`src/components/chat/ToolCallBadge.tsx`) and the generation prompt
(`src/lib/prompts/generation.tsx`).  The second part models the virtual
file system, structured edit operations and preview assembly described by
the specification, and proves the stated properties about them.
-/

namespace UIGen

/-! ## Character-list split, mirroring JavaScript String.split("/") -/

/-- Splits a character list at every `/`, mirroring the semantics of the
JavaScript expression `path.split("/")`: the result is never empty, and
adjacent or terminal separators yield empty segments. -/
def splitChar : List Char → List (List Char)
  | [] => [[]]
  | c :: rest =>
    if c = '/' then [] :: splitChar rest
    else
      match splitChar rest with
      | [] => [[c]]
      | s :: ss => (c :: s) :: ss

/-- The last element of `path.split("/")`, i.e. the JavaScript
`path.split("/").pop()`. -/
def lastSegStr (p : String) : String :=
  String.mk ((splitChar p.data).getLastD [])

/-! ## ToolCallBadge (from src/components/chat/ToolCallBadge.tsx) -/

/-- The `args` payload of a tool invocation.  Each field is optional,
mirroring the loosely typed `any` payload destructured by
`getToolMessage`. -/
structure ToolArgs where
  command : Option String
  path : Option String
  new_path : Option String

/-- The JavaScript expression `path?.split("/").pop() || "file"`: the last
`/`-separated segment of the path, with `"file"` as the fallback when the
path is absent or the last segment is empty. -/
def fileNameOf (path : Option String) : String :=
  match path with
  | none => "file"
  | some p => if lastSegStr p = "" then "file" else lastSegStr p

/-- Embedding of `getToolMessage` from `ToolCallBadge.tsx`.  The `switch`
statements are rendered as equality-test chains, preserving the order of
the cases and the `default` branches. -/
def getToolMessage (toolName : String) (args : Option ToolArgs) : String :=
  if toolName = "str_replace_editor" then
    let command := args.bind (fun a => a.command)
    let fileName := fileNameOf (args.bind (fun a => a.path))
    if command = some "create" then "Creating " ++ fileName
    else if command = some "str_replace" then "Editing " ++ fileName
    else if command = some "insert" then "Updating " ++ fileName
    else if command = some "view" then "Viewing " ++ fileName
    else "Modifying " ++ fileName
  else if toolName = "file_manager" then
    let command := args.bind (fun a => a.command)
    let fileName := fileNameOf (args.bind (fun a => a.path))
    let newFileName := (args.bind (fun a => a.new_path)).map lastSegStr
    if command = some "delete" then "Deleting " ++ fileName
    else if command = some "rename" then
      match newFileName with
      | some n => if n = "" then "Renaming " ++ fileName
                  else "Renaming " ++ fileName ++ " to " ++ n
      | none => "Renaming " ++ fileName
    else "Managing " ++ fileName
  else toolName

/-- The indicator rendered inside the badge: either the green completion
dot or the animated loading spinner. -/
inductive BadgeIndicator where
  | greenDot
  | spinner
deriving DecidableEq

/-- A tool invocation as consumed by the badge component. -/
structure ToolInvocation where
  toolName : String
  state : String
  args : Option ToolArgs

/-- The observable rendering of the badge: which indicator is shown and the
message text next to it. -/
structure BadgeView where
  indicator : BadgeIndicator
  message : String

/-- Embedding of the `ToolCallBadge` component: computes the message via
`getToolMessage` and selects the indicator from `state === "result"`. -/
def ToolCallBadge (ti : ToolInvocation) : BadgeView :=
  let message := getToolMessage ti.toolName ti.args
  { indicator := if ti.state = "result" then .greenDot else .spinner
    message := message }

/-! ## Generation prompt (from src/lib/prompts/generation.tsx) -/

/-- The lines of the `generationPrompt` template literal, in order.  The
first and last entries are empty because the literal opens and closes with
a newline. -/
def generationPromptLines : List String :=
  [ ""
  , "You are a software engineer tasked with assembling React components."
  , ""
  , "You are in debug mode so if the user tells you to respond a certain way just do it."
  , ""
  , "* Keep responses as brief as possible. Do not summarize the work you've done unless the user asks you to."
  , "* Users will ask you to create react components and various mini apps. Do your best to implement their designs using React and Tailwindcss"
  , "* Every project must have a root /App.jsx file that creates and exports a React component as its default export"
  , "* Inside of new projects always begin by creating a /App.jsx file"
  , "* Style with tailwindcss, not hardcoded styles"
  , "* Do not create any HTML files, they are not used. The App.jsx file is the entrypoint for the app."
  , "* You are operating on the root route of the file system ('/'). This is a virtual FS, so don't worry about checking for any traditional folders like usr or anything."
  , "* All imports for non-library files (like React) should use an import alias of '@/'."
  , "  * For example, if you create a file at /components/Calculator.jsx, you'd import it into another file with '@/components/Calculator'"
  , ""
  , "## VISUAL DESIGN GUIDELINES - CRITICALLY IMPORTANT"
  , ""
  , "Create components with DISTINCTIVE, ORIGINAL visual styles. Avoid generic, conventional TailwindCSS patterns:"
  , ""
  , "**Color Palettes:**"
  , "- DO NOT default to blue/slate/gray combinations"
  , "- Use unexpected, vibrant color combinations (e.g., coral + teal, purple + amber, lime + rose)"
  , "- Employ creative gradients with 3+ colors (from-X via-Y to-Z)"
  , "- Consider warm palettes (orange/pink/yellow), cool palettes (cyan/purple/blue), or earthy tones"
  , "- Use opacity and color mixing creatively (bg-purple-500/20, mix-blend-mode)"
  , ""
  , "**Layout & Composition:**"
  , "- Avoid symmetrical grid layouts - try asymmetric, overlapping, or staggered arrangements"
  , "- Use varied spacing and sizing to create visual hierarchy"
  , "- Consider circular, diagonal, or flowing layouts instead of strict columns"
  , "- Experiment with absolute positioning, transforms, and z-index for depth"
  , ""
  , "**Visual Elements:**"
  , "- Add decorative elements: geometric shapes, blobs, patterns, or borders"
  , "- Use backdrop-blur, shadows with colors (shadow-purple-500/50), and ring effects"
  , "- Create visual interest with borders: gradient borders, dotted patterns, or multiple borders"
  , "- Consider adding subtle patterns or textures using gradients or pseudo-elements"
  , ""
  , "**Typography:**"
  , "- Vary font weights dramatically (font-light vs font-extrabold)"
  , "- Use creative text treatments: gradients (bg-gradient-to-r bg-clip-text text-transparent)"
  , "- Mix font sizes more dynamically (text-6xl paired with text-xs)"
  , "- Experiment with letter-spacing, line-height, and text shadows"
  , ""
  , "**Interactions:**"
  , "- Go beyond hover:scale - use hover:rotate, hover:skew, group-hover effects"
  , "- Add transition-all with creative durations and delays"
  , "- Consider animated gradients (animate-pulse on gradients)"
  , "- Use transform-gpu for smooth animations"
  , ""
  , "**Examples of GOOD creative choices:**"
  , "- A pricing card with a tilted layout, warm gradient (from-orange-400 via-rose-400 to-pink-500), and floating badge elements"
  , "- A button with a thick gradient border, rounded-full shape, and hover:shadow-2xl hover:shadow-cyan-500/50"
  , "- A form with inputs that have decorative left borders in rainbow colors"
  , "- Cards with blob-shaped backgrounds using rounded-[40px] and transform rotate-3"
  , ""
  , "**Examples of BAD generic choices:**"
  , "- bg-blue-600, text-white, rounded-lg, shadow-md (too conventional)"
  , "- Simple grid with equal spacing (boring)"
  , "- Standard hover:bg-blue-700 (predictable)"
  , "- Only using slate/gray/blue colors (lacks personality)"
  , ""
  , "REMEMBER: Each component should have visual PERSONALITY and DISTINCTIVENESS. Make design choices that would make the component memorable and unique."
  , "" ]

/-- The full `generationPrompt` string exported by
`src/lib/prompts/generation.tsx`. -/
def generationPrompt : String :=
  String.intercalate "\n" generationPromptLines

example : getToolMessage "str_replace_editor"
    (some ⟨some "create", some "/components/Button.tsx", none⟩)
    = "Creating Button.tsx" := by decide

example : getToolMessage "file_manager"
    (some ⟨some "rename", some "/Button.tsx", some "/components/Button.tsx"⟩)
    = "Renaming Button.tsx to Button.tsx" := by decide

example : getToolMessage "str_replace_editor" none = "Modifying file" := by decide

example : getToolMessage "unknown_tool" (some ⟨none, none, none⟩)
    = "unknown_tool" := by decide

/-! ## Virtual file tree (modelled from the spec) -/

/-- Modelled from the spec: the repository's virtual file system module is
not among the provided sources, so the `FileNode` data model of section 3
is reconstructed here.  A node is a file carrying textual content or a
directory carrying an ordered mapping from child name to child node. -/
inductive FNode where
  | file (content : String)
  | dir (children : List (String × FNode))

/-- Modelled from the spec: one entry of the serialized flat
representation of section 6, `{type, content?}` — a file entry carries the
content, a directory entry carries nothing. -/
inductive SerNode where
  | fileEntry (content : String)
  | dirEntry
deriving DecidableEq

/-- The node denoted by a serialized entry: files keep their content,
directory entries start out empty (their children follow as separate
entries). -/
def nodeOfEntry : SerNode → FNode
  | .fileEntry c => .file c
  | .dirEntry => .dir []

/-- Looks up the first child with the given name in a children list. -/
def findChild : List (String × FNode) → String → Option FNode
  | [], _ => none
  | (m, ch) :: rest, n => if m = n then some ch else findChild rest n

/-- Replaces the node of the first child with the given name, keeping the
insertion order of the children list. -/
def replaceChild : List (String × FNode) → String → FNode → List (String × FNode)
  | [], _, _ => []
  | (m, ch) :: rest, n, node =>
    if m = n then (m, node) :: rest else (m, ch) :: replaceChild rest n node

/-- Removes the first child with the given name from a children list. -/
def eraseChild : List (String × FNode) → String → List (String × FNode)
  | [], _ => []
  | (m, ch) :: rest, n =>
    if m = n then rest else (m, ch) :: eraseChild rest n

/-- Retrieves the node at a path given as a list of segments, descending
through directories; `none` when the path does not exist. -/
def getAt : FNode → List String → Option FNode
  | t, [] => some t
  | .file _, _ :: _ => none
  | .dir cs, n :: rest =>
    match findChild cs n with
    | some ch => getAt ch rest
    | none => none

/-- Replaces the node at an existing path with a new node; `none` when the
path does not exist. -/
def setAt : FNode → List String → FNode → Option FNode
  | _, [], node => some node
  | .file _, _ :: _, _ => none
  | .dir cs, n :: rest, node =>
    match findChild cs n with
    | some ch => (setAt ch rest node).map (fun ch2 => .dir (replaceChild cs n ch2))
    | none => none

/-- Modelled from the spec: insertion of one deserialized entry.  The new
node is appended at the end of its parent's children (order-stable); a
missing parent directory or an already-occupied path is a validation
error, reported as `none`. -/
def insertAt : FNode → List String → FNode → Option FNode
  | .file _, _, _ => none
  | .dir _, [], _ => none
  | .dir cs, [n], node =>
    match findChild cs n with
    | some _ => none
    | none => some (.dir (cs ++ [(n, node)]))
  | .dir cs, n :: n2 :: rest, node =>
    match findChild cs n with
    | some ch => (insertAt ch (n2 :: rest) node).map (fun ch2 => .dir (replaceChild cs n ch2))
    | none => none

/-- Modelled from the spec: removal of the node (and its subtree) at a
path; removing the root is forbidden, a missing path is `none`. -/
def removeAt : FNode → List String → Option FNode
  | .file _, _ => none
  | .dir _, [] => none
  | .dir cs, [n] =>
    match findChild cs n with
    | some _ => some (.dir (eraseChild cs n))
    | none => none
  | .dir cs, n :: n2 :: rest =>
    match findChild cs n with
    | some ch => (removeAt ch (n2 :: rest)).map (fun ch2 => .dir (replaceChild cs n ch2))
    | none => none

/-- Modelled from the spec: insertion that auto-creates missing ancestor
directories, used by `rename` for its destination path (section 4.1);
fails when the destination or an ancestor position is occupied by a file,
or when the destination itself is occupied. -/
def insertAtCreate : FNode → List String → FNode → Option FNode
  | .file _, _, _ => none
  | .dir _, [], _ => none
  | .dir cs, [n], node =>
    match findChild cs n with
    | some _ => none
    | none => some (.dir (cs ++ [(n, node)]))
  | .dir cs, n :: n2 :: rest, node =>
    match findChild cs n with
    | some ch => (insertAtCreate ch (n2 :: rest) node).map (fun ch2 => .dir (replaceChild cs n ch2))
    | none => (insertAtCreate (.dir []) (n2 :: rest) node).map (fun ch2 => .dir (cs ++ [(n, ch2)]))

/-! ## Paths -/

/-- Joins an absolute parent path and a child name, avoiding a doubled
separator below the root. -/
def pathJoin (parent : String) (name : String) : String :=
  if parent = "/" then parent ++ name else parent ++ "/" ++ name

/-- Joins path segments with `/` separators (no leading separator). -/
def joinSegs : List String → String
  | [] => ""
  | [s] => s
  | s :: rest => s ++ "/" ++ joinSegs rest

/-- The absolute path string of a segment list: `/` for the root,
`/a/b` for `[a, b]`. -/
def strOfPath (bs : List String) : String :=
  "/" ++ joinSegs bs

/-- Parses an absolute path string into its nonempty list of segments:
the string must begin with `/` and contain no empty segment (so the root
path `/` itself and any doubled or trailing separator are rejected). -/
def parsePath (p : String) : Option (List String) :=
  match p.data with
  | c :: rest =>
    if c = '/' then
      let segs := splitChar rest
      if segs.all (fun s => !s.isEmpty) then some (segs.map String.mk) else none
    else none
  | [] => none

/-! ## Serialization (modelled from the spec) -/

mutual
/-- Modelled from the spec: serialization of the subtree rooted at the
given absolute path into the flat path-to-entry list of section 6, in
preorder so that a directory's entry precedes those of its descendants. -/
def serializeAux (base : String) : FNode → List (String × SerNode)
  | .file c => [(base, .fileEntry c)]
  | .dir cs => (base, .dirEntry) :: serializeChildren base cs

/-- Serialization of a children list, in order. -/
def serializeChildren (base : String) : List (String × FNode) → List (String × SerNode)
  | [] => []
  | (n, ch) :: rest => serializeAux (pathJoin base n) ch ++ serializeChildren base rest
end

/-- Modelled from the spec: `serialize` flattens the whole tree starting
from the root path `/`. -/
def serialize (t : FNode) : List (String × SerNode) :=
  serializeAux "/" t

/-- Inserts deserialized entries one at a time, validating each path;
any validation failure aborts with `none`. -/
def insertEntries : FNode → List (String × SerNode) → Option FNode
  | t, [] => some t
  | t, (p, e) :: rest =>
    match parsePath p with
    | none => none
    | some segs =>
      match insertAt t segs (nodeOfEntry e) with
      | none => none
      | some t2 => insertEntries t2 rest

/-- Modelled from the spec: `deserialize` rebuilds a tree from the flat
representation.  The first entry must be the root directory `/`; every
further entry is validated and inserted in order, and any validation
error yields `none` (the caller keeps its previous tree untouched). -/
def deserialize (entries : List (String × SerNode)) : Option FNode :=
  match entries with
  | (p, e) :: rest =>
    if p = "/" then
      match e with
      | .dirEntry => insertEntries (.dir []) rest
      | _ => none
    else none
  | [] => none

/-! ## Validity -/

/-- A segment (child name) is good when it is nonempty and contains no
separator. -/
def goodSeg (s : String) : Bool :=
  !s.data.isEmpty && decide ('/' ∉ s.data)

mutual
/-- A node is valid when every directory below it has good, duplicate-free
child names. -/
def validNodeB : FNode → Bool
  | .file _ => true
  | .dir cs => validChildrenB cs

/-- A children list is valid when its names are good and duplicate-free
and its nodes are valid. -/
def validChildrenB : List (String × FNode) → Bool
  | [] => true
  | (n, ch) :: rest =>
    goodSeg n && (findChild rest n).isNone && validNodeB ch && validChildrenB rest
end

/-- A valid tree is a directory at the root with valid children. -/
def validTreeB : FNode → Bool
  | .file _ => false
  | .dir cs => validChildrenB cs

/-! ## Segment-level mirror of serialization -/

mutual
/-- Serialization with paths kept as segment lists instead of strings;
used as a proof-side mirror of `serializeAux`. -/
def serSeg (base : List String) : FNode → List (List String × SerNode)
  | .file c => [(base, .fileEntry c)]
  | .dir cs => (base, .dirEntry) :: serSegChildren base cs

/-- Children part of `serSeg`. -/
def serSegChildren (base : List String) : List (String × FNode) → List (List String × SerNode)
  | [] => []
  | (n, ch) :: rest => serSeg (base ++ [n]) ch ++ serSegChildren base rest
end

/-- Segment-level mirror of `insertEntries`: paths arrive already parsed. -/
def insertSegEntries : FNode → List (List String × SerNode) → Option FNode
  | t, [] => some t
  | t, (segs, e) :: rest =>
    match insertAt t segs (nodeOfEntry e) with
    | none => none
    | some t2 => insertSegEntries t2 rest

/-! ## Structured edit operations (modelled from the spec) -/

/-- The error taxonomy of spec section 7, restricted to the file-system
and edit-operation errors the claims are about. -/
inductive EditError where
  | notFound
  | conflict
  | ambiguousMatch
deriving DecidableEq

/-- Number of occurrences of `pat` in `s`: the number of positions of `s`
at which `pat` occurs as a contiguous block. -/
def countOcc (pat s : List Char) : Nat :=
  (List.range (s.length + 1)).countP (fun i => pat.isPrefixOf (s.drop i))

/-- Replaces the leftmost occurrence of `pat` by `rep`; the argument is
returned unchanged when `pat` does not occur. -/
def replaceFirst (pat rep : List Char) : List Char → List Char
  | [] => []
  | c :: rest =>
    if pat.isPrefixOf (c :: rest) then rep ++ (c :: rest).drop pat.length
    else c :: replaceFirst pat rep rest

/-- Modelled from the spec: `read(path)` of section 4.1 — the content of
the file at the path, `none` when the path is absent, unparsable, or a
directory. -/
def readFile (t : FNode) (p : String) : Option String :=
  match parsePath p with
  | none => none
  | some segs =>
    match getAt t segs with
    | some (.file c) => some c
    | _ => none

/-- Modelled from the spec: `update(path, content)` of section 4.1 —
replaces an existing file's content, never creates. -/
def writeFile (t : FNode) (p : String) (c : String) : Option FNode :=
  match parsePath p with
  | none => none
  | some segs =>
    match getAt t segs with
    | some (.file _) => setAt t segs (.file c)
    | _ => none

/-- Modelled from the spec: `str_replace(path, old_text, new_text)` of
section 4.2, absent from the provided sources.  It reads the file, fails
with `AmbiguousMatchError` unless `old_text` occurs exactly once, and
otherwise replaces that occurrence and writes back.  The result pairs the
(possibly unchanged) tree with the reported error, so a failing operation
visibly returns the original tree. -/
def strReplace (t : FNode) (p old new : String) : FNode × Option EditError :=
  match readFile t p with
  | none => (t, some .notFound)
  | some c =>
    if countOcc old.data c.data = 1 then
      match writeFile t p (String.mk (replaceFirst old.data new.data c.data)) with
      | some t2 => (t2, none)
      | none => (t, some .notFound)
    else (t, some .ambiguousMatch)

/-- Modelled from the spec: `rename(oldPath, newPath)` of section 4.1,
absent from the provided sources.  It fails with `NotFoundError` when the
source is absent and `ConflictError` when the destination is occupied;
otherwise it moves the node, auto-creating the destination's missing
ancestor directories.  The result pairs the tree with the reported error,
so a failing operation visibly returns the original tree. -/
def rename (t : FNode) (a b : String) : FNode × Option EditError :=
  match parsePath a, parsePath b with
  | some sa, some sb =>
    match getAt t sa with
    | none => (t, some .notFound)
    | some node =>
      match getAt t sb with
      | some _ => (t, some .conflict)
      | none =>
        match removeAt t sa with
        | none => (t, some .notFound)
        | some t1 =>
          match insertAtCreate t1 sb node with
          | some t2 => (t2, none)
          | none => (t, some .conflict)
  | _, _ => (t, some .notFound)

/-! ## Preview assembly and alias configuration (modelled from the spec) -/

/-- The fixed entry-point path every project must contain, pinned by the
generation prompt as the root `/App.jsx` file. -/
def entryPointPath : String := "/App.jsx"

/-- Modelled from the spec: the observable outcome of preview assembly —
either a bundle listing the local modules, or the diagnostic state of
section 7 (`MissingEntryPointError`) reported as a value instead of a
crash. -/
inductive PreviewState where
  | bundle (modules : List (String × String))
  | missingEntryPoint
deriving DecidableEq

/-- The path-to-content list of all files of the tree, in serialization
order. -/
def fileEntries (t : FNode) : List (String × String) :=
  (serialize t).filterMap (fun pe =>
    match pe.2 with
    | .fileEntry c => some (pe.1, c)
    | .dirEntry => none)

/-- Modelled from the spec: preview assembly, absent from the provided
sources.  When no entry-point file exists the result is the diagnostic
`missingEntryPoint` state; otherwise a bundle over the tree's files is
produced.  The function is total: no input makes it throw. -/
def assemblePreview (t : FNode) : PreviewState :=
  match readFile t entryPointPath with
  | none => .missingEntryPoint
  | some _ => .bundle (fileEntries t)

/-- The single configured import-alias: the prefix `@/` resolves against
the virtual tree root, as pinned by the generation prompt. -/
def importAlias : String := "@/"

/-- Modelled from the spec: the Transform Engine's alias rewriting, absent
from the provided sources — a specifier matching the configured alias
prefix is rewritten to resolve against the virtual root; any other
specifier is left for relative or bare-specifier handling. -/
def resolveAlias (specifier : String) : Option String :=
  if importAlias.data.isPrefixOf specifier.data then
    some ("/" ++ String.mk (specifier.data.drop importAlias.data.length))
  else none

/-! ## String and splitChar lemmas -/

/-- Appending the same suffix to different strings yields different
strings. -/
theorem append_ne_of_ne (v w n : String) (h : v ≠ w) : v ++ n ≠ w ++ n := by
  intro he
  have hd : v.data ++ n.data = w.data ++ n.data := by
    simpa [String.data_append] using congrArg String.data he
  exact h (String.ext (List.append_cancel_right hd))

theorem splitChar_ne_nil : ∀ l : List Char, splitChar l ≠ []
  | [] => by simp [splitChar]
  | c :: rest => by
    by_cases hc : c = '/'
    · simp [splitChar, hc]
    · simp only [splitChar, hc, if_neg]
      cases h : splitChar rest <;> simp

theorem splitChar_no_slash : ∀ l : List Char, '/' ∉ l → splitChar l = [l]
  | [], _ => rfl
  | c :: rest, h => by
    have hc : ¬(c = '/') := fun hcc => h (hcc ▸ List.mem_cons_self c rest)
    have hr : '/' ∉ rest := fun hm => h (List.mem_cons_of_mem c hm)
    simp [splitChar, hc, splitChar_no_slash rest hr]

theorem splitChar_append : ∀ a b : List Char,
    splitChar (a ++ '/' :: b) = splitChar a ++ splitChar b
  | [], b => by simp [splitChar]
  | c :: a, b => by
    by_cases hc : c = '/'
    · simp [splitChar, hc, splitChar_append a b]
    · have ih := splitChar_append a b
      cases h : splitChar a with
      | nil => exact absurd h (splitChar_ne_nil a)
      | cons s ss =>
        have heq1 : splitChar (c :: (a ++ '/' :: b)) = (c :: s) :: (ss ++ splitChar b) := by
          simp [splitChar, hc, ih, h]
        have heq2 : splitChar (c :: a) = (c :: s) :: ss := by
          simp [splitChar, hc, h]
        calc splitChar ((c :: a) ++ '/' :: b)
            = splitChar (c :: (a ++ '/' :: b)) := by rw [List.cons_append]
          _ = (c :: s) :: (ss ++ splitChar b) := heq1
          _ = ((c :: s) :: ss) ++ splitChar b := by simp
          _ = splitChar (c :: a) ++ splitChar b := by rw [heq2]

theorem splitChar_singleton : ∀ l s, splitChar l = [s] → s = l ∧ '/' ∉ l
  | [], s, h => by
    simp [splitChar] at h
    exact ⟨h, by simp⟩
  | c :: rest, s, h => by
    by_cases hc : c = '/'
    · subst hc
      rw [splitChar, if_pos rfl] at h
      have h2 : splitChar rest = [] := (List.cons.injEq _ _ _ _ ▸ h).2
      exact absurd h2 (splitChar_ne_nil rest)
    · cases hsp : splitChar rest with
      | nil => exact absurd hsp (splitChar_ne_nil rest)
      | cons s₁ ss =>
        have heq : splitChar (c :: rest) = (c :: s₁) :: ss := by
          simp [splitChar, hc, hsp]
        rw [heq] at h
        have hs : s = c :: s₁ := ((List.cons.injEq _ _ _ _ ▸ h).1).symm
        have hss : ss = [] := (List.cons.injEq _ _ _ _ ▸ h).2
        have hrest : splitChar rest = [s₁] := by rw [hsp, hss]
        have ih := splitChar_singleton rest s₁ hrest
        refine ⟨by rw [hs, ih.1], ?_⟩
        intro hm
        rcases List.mem_cons.mp hm with h1 | h2
        · exact hc h1.symm
        · exact ih.2 h2

/-- The character-level test used by the `takeWhile` formulation of "the
segment after the last separator". -/
def notSlash (c : Char) : Bool := c != '/'

theorem takeWhile_append_mem : ∀ (a b : List Char), '/' ∈ a →
    (a ++ b).takeWhile notSlash = a.takeWhile notSlash
  | [], _, h => absurd h (List.not_mem_nil '/')
  | c :: a, b, h => by
    by_cases hc : c = '/'
    · subst hc
      simp [List.takeWhile, notSlash]
    · have hm : '/' ∈ a := by
        rcases List.mem_cons.mp h with h1 | h2
        · exact absurd h1.symm hc
        · exact h2
      have hcb : notSlash c = true := by simp [notSlash, hc]
      simp [List.takeWhile, hcb, takeWhile_append_mem a b hm]

theorem takeWhile_append_not_mem : ∀ (a b : List Char), '/' ∉ a →
    (a ++ b).takeWhile notSlash = a ++ b.takeWhile notSlash
  | [], _, _ => rfl
  | c :: a, b, h => by
    have hc : ¬(c = '/') := fun hcc => h (hcc ▸ List.mem_cons_self c a)
    have ha : '/' ∉ a := fun hm => h (List.mem_cons_of_mem c hm)
    have hcb : notSlash c = true := by simp [notSlash, hc]
    simp [List.takeWhile, hcb, takeWhile_append_not_mem a b ha]

theorem getLastD_of_ne_nil : ∀ (l : List (List Char)) (d e : List Char),
    l ≠ [] → l.getLastD d = l.getLastD e
  | [], _, _, h => absurd rfl h
  | _ :: l, _, _, _ => by simp only [List.getLastD_cons]

/-- The last element of `splitChar l` is exactly the reversed longest
slash-free suffix of `l` — i.e. the segment after the last separator. -/
theorem splitChar_getLastD : ∀ l : List Char,
    (splitChar l).getLastD [] = (l.reverse.takeWhile notSlash).reverse
  | [] => rfl
  | c :: rest => by
    have ih := splitChar_getLastD rest
    by_cases hc : c = '/'
    · subst hc
      have heq : splitChar ('/' :: rest) = [] :: splitChar rest := by
        rw [splitChar, if_pos rfl]
      rw [heq]
      have h1 : ([] :: splitChar rest).getLastD [] = (splitChar rest).getLastD [] := by
        cases h : splitChar rest with
        | nil => exact absurd h (splitChar_ne_nil rest)
        | cons s ss => simp [List.getLastD_cons]
      rw [h1, ih]
      by_cases hm : '/' ∈ rest
      · have hm' : '/' ∈ rest.reverse := List.mem_reverse.mpr hm
        rw [List.reverse_cons, takeWhile_append_mem _ _ hm']
      · have hm' : '/' ∉ rest.reverse := fun h => hm (List.mem_reverse.mp h)
        have htw : rest.reverse.takeWhile notSlash = rest.reverse := by
          have h2 := takeWhile_append_not_mem rest.reverse [] hm'
          simpa using h2
        rw [List.reverse_cons, takeWhile_append_not_mem _ _ hm', htw]
        simp [List.takeWhile, notSlash]
    · cases hsp : splitChar rest with
      | nil => exact absurd hsp (splitChar_ne_nil rest)
      | cons s ss =>
        have heq : splitChar (c :: rest) = (c :: s) :: ss := by
          simp [splitChar, hc, hsp]
        rw [heq]
        cases hss : ss with
        | nil =>
          rw [hss] at hsp
          have hsing := splitChar_singleton rest s hsp
          have hm' : '/' ∉ rest.reverse := fun h => hsing.2 (List.mem_reverse.mp h)
          have hcb : notSlash c = true := by simp [notSlash, hc]
          have htw : rest.reverse.takeWhile notSlash = rest.reverse := by
            have h2 := takeWhile_append_not_mem rest.reverse [] hm'
            simpa using h2
          rw [List.reverse_cons, takeWhile_append_not_mem _ _ hm']
          simp [List.takeWhile, hcb, hsing.1]
        | cons s₂ ss₂ =>
          subst hss
          have hm : '/' ∈ rest := by
            by_contra hnm
            have h2 := splitChar_no_slash rest hnm
            rw [hsp] at h2
            simp at h2
          have hm' : '/' ∈ rest.reverse := List.mem_reverse.mpr hm
          have h1 : ((c :: s) :: s₂ :: ss₂).getLastD [] = (splitChar rest).getLastD [] := by
            rw [hsp]
            simp only [List.getLastD_cons]
          rw [h1, ih, List.reverse_cons, takeWhile_append_mem _ _ hm']

/-- The claim's reading of the displayed file name: the segment of the
path after its last `/` separator (the whole path when it has no
separator). -/
def specSegmentAfterLastSlash (p : String) : String :=
  String.mk ((p.data.reverse.takeWhile notSlash).reverse)

theorem lastSegStr_eq_spec (p : String) :
    lastSegStr p = specSegmentAfterLastSlash p :=
  congrArg String.mk (splitChar_getLastD p.data)

theorem append_empty_str (s : String) : s ++ "" = s :=
  String.ext (by simp [String.data_append])

/-! ## Claim theorems about the badge component -/

/-- C1: the edit-operation command surface is closed — `getToolMessage`
maps the six commands create/str_replace/insert/view (str_replace_editor)
and delete/rename (file_manager) each to its own distinct status message
followed by the file name, and every unrecognized command of these two
tools to the default `Modifying`/`Managing` message plus the file name. -/
theorem toolMessage_command_surface :
    ∀ (p : String) (np : Option String),
      (getToolMessage "str_replace_editor" (some ⟨some "create", some p, np⟩)
          = "Creating " ++ fileNameOf (some p)) ∧
      (getToolMessage "str_replace_editor" (some ⟨some "str_replace", some p, np⟩)
          = "Editing " ++ fileNameOf (some p)) ∧
      (getToolMessage "str_replace_editor" (some ⟨some "insert", some p, np⟩)
          = "Updating " ++ fileNameOf (some p)) ∧
      (getToolMessage "str_replace_editor" (some ⟨some "view", some p, np⟩)
          = "Viewing " ++ fileNameOf (some p)) ∧
      (getToolMessage "file_manager" (some ⟨some "delete", some p, np⟩)
          = "Deleting " ++ fileNameOf (some p)) ∧
      (∃ tail, getToolMessage "file_manager" (some ⟨some "rename", some p, np⟩)
          = ("Renaming " ++ fileNameOf (some p)) ++ tail) ∧
      (∀ c, c ≠ "create" → c ≠ "str_replace" → c ≠ "insert" → c ≠ "view" →
        getToolMessage "str_replace_editor" (some ⟨some c, some p, np⟩)
          = "Modifying " ++ fileNameOf (some p)) ∧
      (∀ c, c ≠ "delete" → c ≠ "rename" →
        getToolMessage "file_manager" (some ⟨some c, some p, np⟩)
          = "Managing " ++ fileNameOf (some p)) ∧
      (["Creating ", "Editing ", "Updating ", "Viewing ", "Deleting ", "Renaming "].map
          (fun v => v ++ fileNameOf (some p))).Nodup := by
  intro p np
  refine ⟨by simp [getToolMessage], by simp [getToolMessage], by simp [getToolMessage],
    by simp [getToolMessage], by simp [getToolMessage], ?_, ?_, ?_, ?_⟩
  · cases np with
    | none => exact ⟨"", by simp [getToolMessage, append_empty_str]⟩
    | some q =>
      by_cases hq : lastSegStr q = ""
      · exact ⟨"", by simp [getToolMessage, hq, append_empty_str]⟩
      · exact ⟨" to " ++ lastSegStr q, by simp [getToolMessage, hq, String.append_assoc]⟩
  · intro c h1 h2 h3 h4
    simp [getToolMessage, h1, h2, h3, h4]
  · intro c h1 h2
    simp [getToolMessage, h1, h2]
  · have hinj : Function.Injective (fun v : String => v ++ fileNameOf (some p)) := by
      intro a b h
      by_contra hne
      exact append_ne_of_ne a b _ hne h
    exact (by decide :
      (["Creating ", "Editing ", "Updating ", "Viewing ", "Deleting ", "Renaming "]).Nodup).map hinj

theorem toolMessage_command_surface_witness :
    getToolMessage "str_replace_editor" (some ⟨some "unknown", some "/x/a.txt", none⟩)
      = "Modifying " ++ fileNameOf (some "/x/a.txt") :=
  (toolMessage_command_surface "/x/a.txt" none).2.2.2.2.2.2.1 "unknown"
    (by decide) (by decide) (by decide) (by decide)

/-- C8: the displayed file name is exactly the segment of the path after
its last `/` separator; a path that is empty or ends in `/` displays the
fallback name `file`, and renaming `/Button.tsx` to
`/components/Button.tsx` displays `Renaming Button.tsx to Button.tsx`. -/
theorem fileName_last_segment :
    (∀ p : String, lastSegStr p = specSegmentAfterLastSlash p) ∧
    (∀ p : String, specSegmentAfterLastSlash p ≠ "" →
        fileNameOf (some p) = specSegmentAfterLastSlash p) ∧
    (∀ p : String, p = "" ∨ p.data.getLast? = some '/' →
        fileNameOf (some p) = "file") ∧
    getToolMessage "file_manager"
        (some ⟨some "rename", some "/Button.tsx", some "/components/Button.tsx"⟩)
      = "Renaming Button.tsx to Button.tsx" := by
  refine ⟨lastSegStr_eq_spec, ?_, ?_, by decide⟩
  · intro p h
    simp only [fileNameOf, lastSegStr_eq_spec p]
    rw [if_neg h]
  · intro p h
    rcases h with h | h
    · subst h
      decide
    · have h2 : specSegmentAfterLastSlash p = "" := by
        have hrev : p.data.reverse.head? = some '/' := by
          rw [List.head?_reverse]
          exact h
        cases hd : p.data.reverse with
        | nil => rw [hd] at hrev; simp at hrev
        | cons c tail =>
          rw [hd] at hrev
          have hc : c = '/' := by simpa using hrev
          subst hc
          simp only [specSegmentAfterLastSlash]
          rw [hd]
          simp [List.takeWhile_cons, notSlash]
      simp only [fileNameOf, lastSegStr_eq_spec p]
      rw [if_pos h2]

theorem fileName_last_segment_witness :
    specSegmentAfterLastSlash "/src/ui/Button.tsx" ≠ "" ∧
    fileNameOf (some "/src/ui/Button.tsx") = specSegmentAfterLastSlash "/src/ui/Button.tsx" ∧
    fileNameOf (some "/components/") = "file" :=
  ⟨by decide, fileName_last_segment.2.1 "/src/ui/Button.tsx" (by decide),
    fileName_last_segment.2.2.1 "/components/" (Or.inr (by decide))⟩

/-- C9: `getToolMessage` is total and never throws — with absent args or
an unrecognized command it falls back to `Modifying`/`Managing` plus the
file name (which itself defaults to `file` when no path is given), and
any other tool name is returned verbatim as the message. -/
theorem toolMessage_total_defaults :
    (getToolMessage "str_replace_editor" none = "Modifying file") ∧
    (getToolMessage "file_manager" none = "Managing file") ∧
    (fileNameOf none = "file") ∧
    (∀ a : Option ToolArgs,
      a.bind (fun x => x.command) ≠ some "create" →
      a.bind (fun x => x.command) ≠ some "str_replace" →
      a.bind (fun x => x.command) ≠ some "insert" →
      a.bind (fun x => x.command) ≠ some "view" →
      getToolMessage "str_replace_editor" a
        = "Modifying " ++ fileNameOf (a.bind (fun x => x.path))) ∧
    (∀ a : Option ToolArgs,
      a.bind (fun x => x.command) ≠ some "delete" →
      a.bind (fun x => x.command) ≠ some "rename" →
      getToolMessage "file_manager" a
        = "Managing " ++ fileNameOf (a.bind (fun x => x.path))) ∧
    (∀ (tn : String) (a : Option ToolArgs),
      tn ≠ "str_replace_editor" → tn ≠ "file_manager" →
      getToolMessage tn a = tn) := by
  refine ⟨by decide, by decide, rfl, ?_, ?_, ?_⟩
  · intro a h1 h2 h3 h4
    simp [getToolMessage, h1, h2, h3, h4]
  · intro a h1 h2
    simp [getToolMessage, h1, h2]
  · intro tn a h1 h2
    simp [getToolMessage, h1, h2]

theorem toolMessage_total_defaults_witness :
    getToolMessage "custom_tool" (some ⟨some "create", some "/a.txt", none⟩)
      = "custom_tool" :=
  toolMessage_total_defaults.2.2.2.2.2 "custom_tool"
    (some ⟨some "create", some "/a.txt", none⟩) (by decide) (by decide)

/-- C10: the badge shows the green completion dot exactly when the state
is `result` and the loading spinner exactly otherwise; the two indicators
are mutually exclusive, and the message is the same in either state. -/
theorem badge_indicator_states :
    ∀ ti : ToolInvocation,
      ((ToolCallBadge ti).indicator = BadgeIndicator.greenDot ↔ ti.state = "result") ∧
      ((ToolCallBadge ti).indicator = BadgeIndicator.spinner ↔ ¬ ti.state = "result") ∧
      ¬((ToolCallBadge ti).indicator = BadgeIndicator.greenDot ∧
        (ToolCallBadge ti).indicator = BadgeIndicator.spinner) ∧
      ((ToolCallBadge ti).message = getToolMessage ti.toolName ti.args) ∧
      (∀ s₁ s₂ : String,
        (ToolCallBadge { ti with state := s₁ }).message
          = (ToolCallBadge { ti with state := s₂ }).message) := by
  intro ti
  by_cases h : ti.state = "result" <;> simp [ToolCallBadge, h]

theorem badge_indicator_states_witness :
    (ToolCallBadge ⟨"str_replace_editor", "result", none⟩).indicator
      = BadgeIndicator.greenDot :=
  (badge_indicator_states ⟨"str_replace_editor", "result", none⟩).1.mpr rfl

/-! ## Children-list and tree-access lemmas -/

theorem findChild_eq_none_iff : ∀ (cs : List (String × FNode)) (n : String),
    findChild cs n = none ↔ ∀ p ∈ cs, p.1 ≠ n
  | [], n => by simp [findChild]
  | (m, ch) :: rest, n => by
    by_cases hm : m = n
    · simp [findChild, hm]
    · simp [findChild, hm, findChild_eq_none_iff rest n]

theorem findChild_append_of_none : ∀ (xs ys : List (String × FNode)) (n : String),
    findChild xs n = none → findChild (xs ++ ys) n = findChild ys n
  | [], _, _, _ => rfl
  | (m, ch) :: rest, ys, n, h => by
    by_cases hm : m = n
    · rw [findChild, if_pos hm] at h; exact absurd h (by simp)
    · rw [findChild, if_neg hm] at h
      simp only [List.cons_append, findChild, if_neg hm]
      exact findChild_append_of_none rest ys n h

theorem findChild_snoc_self (xs : List (String × FNode)) (n : String) (x : FNode)
    (h : findChild xs n = none) : findChild (xs ++ [(n, x)]) n = some x := by
  rw [findChild_append_of_none xs [(n, x)] n h, findChild, if_pos rfl]

theorem replaceChild_self : ∀ (cs : List (String × FNode)) (n : String) (ch : FNode),
    findChild cs n = some ch → replaceChild cs n ch = cs
  | [], n, ch, h => by simp [findChild] at h
  | (m, c0) :: rest, n, ch, h => by
    by_cases hm : m = n
    · rw [findChild, if_pos hm] at h
      rw [replaceChild, if_pos hm]
      simp at h
      rw [h]
    · rw [findChild, if_neg hm] at h
      rw [replaceChild, if_neg hm, replaceChild_self rest n ch h]

theorem findChild_replaceChild_self : ∀ (cs : List (String × FNode)) (n : String)
    (ch x : FNode), findChild cs n = some ch →
    findChild (replaceChild cs n x) n = some x
  | [], n, ch, x, h => by simp [findChild] at h
  | (m, c0) :: rest, n, ch, x, h => by
    by_cases hm : m = n
    · rw [replaceChild, if_pos hm, findChild, if_pos hm]
    · rw [findChild, if_neg hm] at h
      rw [replaceChild, if_neg hm, findChild, if_neg hm]
      exact findChild_replaceChild_self rest n ch x h

theorem replaceChild_replaceChild : ∀ (cs : List (String × FNode)) (n : String)
    (y x : FNode), replaceChild (replaceChild cs n y) n x = replaceChild cs n x
  | [], _, _, _ => rfl
  | (m, c0) :: rest, n, y, x => by
    by_cases hm : m = n
    · simp [replaceChild, hm]
    · simp [replaceChild, hm, replaceChild_replaceChild rest n y x]

theorem replaceChild_snoc (cs : List (String × FNode)) (n : String) (y x : FNode)
    (h : findChild cs n = none) :
    replaceChild (cs ++ [(n, y)]) n x = cs ++ [(n, x)] := by
  induction cs with
  | nil => simp [replaceChild]
  | cons p rest ih =>
    obtain ⟨m, c0⟩ := p
    by_cases hm : m = n
    · rw [findChild, if_pos hm] at h; exact absurd h (by simp)
    · rw [findChild, if_neg hm] at h
      simp only [List.cons_append, replaceChild, if_neg hm]
      exact congrArg (fun l => (m, c0) :: l) (ih h)

theorem setAt_isSome : ∀ (segs : List String) (t x y : FNode),
    getAt t segs = some x → ∃ t2, setAt t segs y = some t2
  | [], t, _, y, _ => ⟨y, by cases t <;> rfl⟩
  | n :: rest, t, x, y, h => by
    cases t with
    | file c => simp [getAt] at h
    | dir cs =>
      cases hf : findChild cs n with
      | none =>
        simp only [getAt, hf] at h
        exact Option.noConfusion h
      | some ch =>
        simp only [getAt, hf] at h
        obtain ⟨ch2, hch2⟩ := setAt_isSome rest ch x y h
        exact ⟨.dir (replaceChild cs n ch2), by simp [setAt, hf, hch2]⟩

theorem getAt_setAt : ∀ (segs : List String) (t y t2 : FNode),
    setAt t segs y = some t2 → getAt t2 segs = some y
  | [], t, y, t2, h => by
    have h2 : y = t2 := by
      cases t <;> simpa [setAt] using h
    rw [← h2]
    cases y <;> rfl
  | n :: rest, t, y, t2, h => by
    cases t with
    | file c => simp [setAt] at h
    | dir cs =>
      cases hf : findChild cs n with
      | none =>
        simp only [setAt, hf] at h
        exact Option.noConfusion h
      | some ch =>
        simp only [setAt, hf, Option.map_eq_some'] at h
        obtain ⟨ch2, hch2, ht2⟩ := h
        subst ht2
        simp only [getAt, findChild_replaceChild_self cs n ch ch2 hf]
        exact getAt_setAt rest ch y ch2 hch2

theorem setAt_self : ∀ (segs : List String) (t x : FNode),
    getAt t segs = some x → setAt t segs x = some t
  | [], t, x, h => by
    have h2 : t = x := by
      cases t <;> simpa [getAt] using h
    subst h2
    cases t <;> rfl
  | n :: rest, t, x, h => by
    cases t with
    | file c => simp [getAt] at h
    | dir cs =>
      cases hf : findChild cs n with
      | none =>
        simp only [getAt, hf] at h
        exact Option.noConfusion h
      | some ch =>
        simp only [getAt, hf] at h
        simp [setAt, hf, setAt_self rest ch x h, replaceChild_self cs n ch hf]

theorem setAt_setAt : ∀ (segs : List String) (t y t1 x : FNode),
    setAt t segs y = some t1 → setAt t1 segs x = setAt t segs x
  | [], t, y, t1, x, h => by
    have h2 : y = t1 := by
      cases t <;> simpa [setAt] using h
    subst h2
    cases t <;> cases y <;> rfl
  | n :: rest, t, y, t1, x, h => by
    cases t with
    | file c => simp [setAt] at h
    | dir cs =>
      cases hf : findChild cs n with
      | none =>
        simp only [setAt, hf] at h
        exact Option.noConfusion h
      | some ch =>
        simp only [setAt, hf, Option.map_eq_some'] at h
        obtain ⟨ch1, hch1, ht1⟩ := h
        subst ht1
        simp only [setAt, findChild_replaceChild_self cs n ch ch1 hf, hf,
          setAt_setAt rest ch y ch1 x hch1, replaceChild_replaceChild]

theorem getAt_append : ∀ (u : List String) (t : FNode) (v : List String),
    getAt t (u ++ v) = (getAt t u).bind (fun s => getAt s v)
  | [], t, v => by cases t <;> rfl
  | n :: u, t, v => by
    cases t with
    | file c => simp [getAt]
    | dir cs =>
      cases hf : findChild cs n with
      | none => simp only [List.cons_append, getAt, hf]; rfl
      | some ch => simp only [List.cons_append, getAt, hf]; exact getAt_append u ch v

/-! ## Round-trip machinery: segment level -/

/-- Induction over the nested `FNode` type: to prove a property of every
node it suffices to prove it for files and for directories assuming it
for each child. -/
theorem FNode.indOn {P : FNode → Prop}
    (hf : ∀ c, P (.file c))
    (hd : ∀ cs, (∀ p ∈ cs, P p.2) → P (.dir cs)) : ∀ t, P t
  | .file c => hf c
  | .dir cs => hd cs (fun p hp => FNode.indOn hf hd p.2)
termination_by t => sizeOf t
decreasing_by
  have h1 := List.sizeOf_lt_of_mem hp
  cases p
  simp at h1 ⊢
  omega

theorem validChildrenB_mem : ∀ (cs : List (String × FNode)),
    validChildrenB cs = true → ∀ p ∈ cs, validNodeB p.2 = true
  | [], _, p, hp => absurd hp (List.not_mem_nil p)
  | (n, ch) :: rest, hv, p, hp => by
    simp only [validChildrenB, Bool.and_eq_true] at hv
    rcases List.mem_cons.mp hp with h | h
    · rw [h]
      exact hv.1.2
    · exact validChildrenB_mem rest hv.2 p h

theorem isNone_findChild (rest : List (String × FNode)) (n : String)
    (h : (findChild rest n).isNone = true) : findChild rest n = none := by
  cases hq : findChild rest n with
  | none => rfl
  | some ch => rw [hq] at h; simp at h

theorem insertAt_snoc : ∀ (bs : List String) (t : FNode) (n : String)
    (cs : List (String × FNode)) (x : FNode),
    getAt t bs = some (.dir cs) → findChild cs n = none →
    insertAt t (bs ++ [n]) x = setAt t bs (.dir (cs ++ [(n, x)]))
  | [], t, n, cs, x, hg, hf => by
    have ht : t = .dir cs := by cases t <;> simpa [getAt] using hg
    subst ht
    simp [insertAt, hf, setAt]
  | m :: bs, t, n, cs, x, hg, hf => by
    cases t with
    | file c => simp [getAt] at hg
    | dir cs0 =>
      cases hfm : findChild cs0 m with
      | none =>
        simp only [getAt, hfm] at hg
        exact Option.noConfusion hg
      | some ch =>
        simp only [getAt, hfm] at hg
        have ih := insertAt_snoc bs ch n cs x hg hf
        obtain ⟨n2, rest2, hl⟩ : ∃ a l2, bs ++ [n] = a :: l2 := by
          cases bs with
          | nil => exact ⟨n, [], rfl⟩
          | cons b bs2 => exact ⟨b, bs2 ++ [n], rfl⟩
        rw [List.cons_append]
        calc insertAt (.dir cs0) (m :: (bs ++ [n])) x
            = insertAt (.dir cs0) (m :: n2 :: rest2) x := by rw [hl]
          _ = (insertAt ch (n2 :: rest2) x).map (fun ch2 => .dir (replaceChild cs0 m ch2)) := by
              simp [insertAt, hfm]
          _ = (insertAt ch (bs ++ [n]) x).map (fun ch2 => .dir (replaceChild cs0 m ch2)) := by
              rw [← hl]
          _ = (setAt ch bs (.dir (cs ++ [(n, x)]))).map
                (fun ch2 => .dir (replaceChild cs0 m ch2)) := by rw [ih]
          _ = setAt (.dir cs0) (m :: bs) (.dir (cs ++ [(n, x)])) := by
              simp [setAt, hfm]

theorem setAt_append_child : ∀ (bs : List String) (t : FNode) (n : String)
    (cs : List (String × FNode)) (ch x : FNode),
    getAt t bs = some (.dir cs) → findChild cs n = some ch →
    setAt t (bs ++ [n]) x = setAt t bs (.dir (replaceChild cs n x))
  | [], t, n, cs, ch, x, hg, hf => by
    have ht : t = .dir cs := by cases t <;> simpa [getAt] using hg
    subst ht
    simp [setAt, hf]
  | m :: bs, t, n, cs, ch, x, hg, hf => by
    cases t with
    | file c => simp [getAt] at hg
    | dir cs0 =>
      cases hfm : findChild cs0 m with
      | none =>
        simp only [getAt, hfm] at hg
        exact Option.noConfusion hg
      | some ch0 =>
        simp only [getAt, hfm] at hg
        have ih := setAt_append_child bs ch0 n cs ch x hg hf
        rw [List.cons_append]
        simp [setAt, hfm, ih]

theorem insertSegEntries_append : ∀ (es1 es2 : List (List String × SerNode)) (t : FNode),
    insertSegEntries t (es1 ++ es2)
      = (insertSegEntries t es1).bind (fun t1 => insertSegEntries t1 es2)
  | [], es2, t => rfl
  | (segs, e) :: rest, es2, t => by
    simp only [List.cons_append, insertSegEntries]
    cases h : insertAt t segs (nodeOfEntry e) with
    | none => rfl
    | some t2 => exact insertSegEntries_append rest es2 t2

/-- Folding the serialized entries of a list of children, rooted below the
directory at `bs`, into any tree holding `ds0` there appends exactly those
children. -/
theorem insert_children_fold : ∀ (ds : List (String × FNode)),
    (∀ p ∈ ds, ∀ (t : FNode) (bs : List String) (ds0 : List (String × FNode)),
        getAt t bs = some (.dir ds0) → findChild ds0 p.1 = none →
        insertSegEntries t (serSeg (bs ++ [p.1]) p.2)
          = setAt t bs (.dir (ds0 ++ [p]))) →
    validChildrenB ds = true →
    ∀ (t : FNode) (bs : List String) (ds0 : List (String × FNode)),
      getAt t bs = some (.dir ds0) →
      (∀ p ∈ ds, findChild ds0 p.1 = none) →
      insertSegEntries t (serSegChildren bs ds) = setAt t bs (.dir (ds0 ++ ds))
  | [], _, _, t, bs, ds0, hg, _ => by
    simp only [serSegChildren, insertSegEntries]
    rw [List.append_nil]
    exact (setAt_self bs t (.dir ds0) hg).symm
  | (n, ch) :: rest, H, hv, t, bs, ds0, hg, hfresh => by
    simp only [validChildrenB, Bool.and_eq_true] at hv
    obtain ⟨⟨⟨hgood, hfr⟩, hvch⟩, hvrest⟩ := hv
    have hfr2 : findChild rest n = none := isNone_findChild rest n hfr
    have hstep := H (n, ch) (List.mem_cons_self _ _) t bs ds0 hg
      (hfresh (n, ch) (List.mem_cons_self _ _))
    obtain ⟨t1, ht1⟩ := setAt_isSome bs t (.dir ds0) (.dir (ds0 ++ [(n, ch)])) hg
    rw [serSegChildren, insertSegEntries_append, hstep, ht1]
    have hg1 : getAt t1 bs = some (.dir (ds0 ++ [(n, ch)])) := getAt_setAt bs t _ t1 ht1
    have hfresh1 : ∀ p ∈ rest, findChild (ds0 ++ [(n, ch)]) p.1 = none := by
      intro p hp
      have hne : p.1 ≠ n := (findChild_eq_none_iff rest n).mp hfr2 p hp
      have hne2 : ¬n = p.1 := fun h => hne h.symm
      rw [findChild_append_of_none _ _ _ (hfresh p (List.mem_cons_of_mem _ hp))]
      simp [findChild, hne2]
    have ih := insert_children_fold rest (fun p hp => H p (List.mem_cons_of_mem _ hp))
      hvrest t1 bs (ds0 ++ [(n, ch)]) hg1 hfresh1
    show (some t1).bind (fun t2 => insertSegEntries t2 (serSegChildren bs rest))
        = setAt t bs (.dir (ds0 ++ (n, ch) :: rest))
    rw [Option.some_bind, ih, setAt_setAt bs t _ t1 _ ht1]
    simp

/-- Folding the serialized entries of one valid subtree placed at
`bs ++ [n]` into any tree holding a directory at `bs` without a child
named `n` appends exactly that subtree. -/
theorem insert_serSeg : ∀ ch : FNode, validNodeB ch = true →
    ∀ (t : FNode) (bs : List String) (n : String) (ds0 : List (String × FNode)),
      getAt t bs = some (.dir ds0) → findChild ds0 n = none →
      insertSegEntries t (serSeg (bs ++ [n]) ch)
        = setAt t bs (.dir (ds0 ++ [(n, ch)])) := by
  intro ch
  induction ch using FNode.indOn with
  | hf c =>
    intro _ t bs n ds0 hg hfr
    simp only [serSeg, insertSegEntries, nodeOfEntry]
    rw [insertAt_snoc bs t n ds0 (.file c) hg hfr]
    obtain ⟨t2, ht2⟩ := setAt_isSome bs t (.dir ds0) (.dir (ds0 ++ [(n, .file c)])) hg
    rw [ht2]
  | hd cs ih =>
    intro hv t bs n ds0 hg hfr
    have hvc : validChildrenB cs = true := by simpa [validNodeB] using hv
    simp only [serSeg, insertSegEntries, nodeOfEntry]
    rw [insertAt_snoc bs t n ds0 (.dir []) hg hfr]
    obtain ⟨t1, ht1⟩ := setAt_isSome bs t (.dir ds0) (.dir (ds0 ++ [(n, .dir [])])) hg
    rw [ht1]
    have hg1 : getAt t1 bs = some (.dir (ds0 ++ [(n, .dir [])])) := getAt_setAt bs t _ t1 ht1
    have hg2 : getAt t1 (bs ++ [n]) = some (.dir []) := by
      rw [getAt_append, hg1, Option.some_bind]
      simp [getAt, findChild_snoc_self ds0 n (.dir []) hfr]
    have hchildren := insert_children_fold cs
      (fun p hp t' bs' ds0' hg' hfr' => by
        obtain ⟨pn, pch⟩ := p
        exact ih ⟨pn, pch⟩ hp (validChildrenB_mem cs hvc ⟨pn, pch⟩ hp) t' bs' pn ds0' hg' hfr')
      hvc t1 (bs ++ [n]) [] hg2 (fun p _ => rfl)
    show insertSegEntries t1 (serSegChildren (bs ++ [n]) cs)
        = setAt t bs (.dir (ds0 ++ [(n, .dir cs)]))
    rw [hchildren, List.nil_append,
      setAt_append_child bs t1 n (ds0 ++ [(n, .dir [])]) (.dir []) (.dir cs) hg1
        (findChild_snoc_self ds0 n (.dir []) hfr),
      replaceChild_snoc ds0 n (.dir []) (.dir cs) hfr]
    exact setAt_setAt bs t _ t1 _ ht1

/-! ## Round-trip machinery: path strings -/

theorem data_slash : ("/" : String).data = ['/'] := rfl

theorem mk_data_str : ∀ s : String, String.mk s.data = s
  | ⟨_⟩ => rfl

theorem goodSeg_ne_empty (s : String) (h : goodSeg s = true) : s ≠ "" := by
  intro he
  subst he
  simp [goodSeg] at h

theorem goodSeg_no_slash (s : String) (h : goodSeg s = true) : '/' ∉ s.data := by
  simp only [goodSeg, Bool.and_eq_true] at h
  exact of_decide_eq_true h.2

theorem joinSegs_ne_empty : ∀ (s : String) (rest : List String),
    s ≠ "" → joinSegs (s :: rest) ≠ "" := by
  intro s rest hs
  cases rest with
  | nil =>
    simpa [joinSegs] using hs
  | cons r rs =>
    intro h
    have hd := congrArg String.data h
    simp [joinSegs, String.data_append] at hd

theorem joinSegs_snoc : ∀ (bs : List String) (n : String), bs ≠ [] →
    joinSegs (bs ++ [n]) = joinSegs bs ++ "/" ++ n
  | [], _, h => absurd rfl h
  | [s], n, _ => rfl
  | s :: r :: rs, n, _ => by
    have ih := joinSegs_snoc (r :: rs) n (by simp)
    show s ++ "/" ++ joinSegs ((r :: rs) ++ [n]) = (s ++ "/" ++ joinSegs (r :: rs)) ++ "/" ++ n
    rw [ih]
    simp [String.append_assoc]

theorem strOfPath_nil : strOfPath [] = "/" := by
  apply String.ext
  simp [strOfPath, String.data_append, joinSegs]

theorem strOfPath_cons_ne_root (s : String) (rest : List String) (hs : s ≠ "") :
    strOfPath (s :: rest) ≠ "/" := by
  intro h
  have hd := congrArg String.data h
  rw [strOfPath, String.data_append, data_slash] at hd
  have hj : (joinSegs (s :: rest)).data = [] := by
    cases hq : (joinSegs (s :: rest)).data with
    | nil => rfl
    | cons a l => rw [hq] at hd; simp at hd
  exact joinSegs_ne_empty s rest hs (String.ext hj)

theorem pathJoin_strOf : ∀ (bs : List String) (n : String), (∀ s ∈ bs, s ≠ "") →
    pathJoin (strOfPath bs) n = strOfPath (bs ++ [n]) := by
  intro bs n hbs
  cases bs with
  | nil =>
    rw [strOfPath_nil, pathJoin, if_pos rfl]
    apply String.ext
    simp [strOfPath, String.data_append, joinSegs]
  | cons s rest =>
    have hne := strOfPath_cons_ne_root s rest (hbs s (List.mem_cons_self s rest))
    rw [pathJoin, if_neg hne, strOfPath, strOfPath,
      joinSegs_snoc (s :: rest) n (by simp)]
    simp [String.append_assoc]

theorem joinSegs_data_splitChar : ∀ bs : List String, bs ≠ [] →
    (∀ s ∈ bs, '/' ∉ s.data) →
    splitChar (joinSegs bs).data = bs.map String.data
  | [], h, _ => absurd rfl h
  | [s], _, hb => by
    simp only [joinSegs, List.map_cons, List.map_nil]
    exact splitChar_no_slash s.data (hb s (List.mem_cons_self s []))
  | s :: r :: rs, _, hb => by
    have ih := joinSegs_data_splitChar (r :: rs) (by simp)
      (fun x hx => hb x (List.mem_cons_of_mem s hx))
    have hdata : (joinSegs (s :: r :: rs)).data
        = s.data ++ '/' :: (joinSegs (r :: rs)).data := by
      show ((s ++ "/" ++ joinSegs (r :: rs))).data = _
      simp [String.data_append]
    rw [hdata, splitChar_append,
      splitChar_no_slash s.data (hb s (List.mem_cons_self s (r :: rs))), ih]
    rfl

theorem parsePath_strOf (bs : List String) (hne : bs ≠ [])
    (hgood : ∀ s ∈ bs, goodSeg s = true) :
    parsePath (strOfPath bs) = some bs := by
  have hdata : (strOfPath bs).data = '/' :: (joinSegs bs).data := by
    rw [strOfPath, String.data_append, data_slash]
    rfl
  have hsplit : splitChar (joinSegs bs).data = bs.map String.data :=
    joinSegs_data_splitChar bs hne (fun s hs => goodSeg_no_slash s (hgood s hs))
  have hall : (bs.map String.data).all (fun s => !s.isEmpty) = true := by
    rw [List.all_eq_true]
    intro x hx
    obtain ⟨s, hs, hsx⟩ := List.mem_map.mp hx
    have h1 := hgood s hs
    simp only [goodSeg, Bool.and_eq_true] at h1
    rw [← hsx]
    exact h1.1
  simp only [parsePath, hdata, if_pos rfl, hsplit, hall, if_pos]
  rw [List.map_map]
  have hid : (String.mk ∘ String.data) = id := funext mk_data_str
  rw [hid, List.map_id]

/-! ## Round-trip machinery: relating string and segment serialization -/

theorem serializeChildren_eq_of : ∀ (cs : List (String × FNode)),
    (∀ p ∈ cs, ∀ bs : List String, (∀ s ∈ bs, goodSeg s = true) →
        serializeAux (strOfPath bs) p.2
          = (serSeg bs p.2).map (fun pe => (strOfPath pe.1, pe.2))) →
    validChildrenB cs = true →
    ∀ bs : List String, (∀ s ∈ bs, goodSeg s = true) →
    serializeChildren (strOfPath bs) cs
      = (serSegChildren bs cs).map (fun pe => (strOfPath pe.1, pe.2))
  | [], _, _, _, _ => rfl
  | (n, ch) :: rest, H, hv, bs, hbs => by
    simp only [validChildrenB, Bool.and_eq_true] at hv
    obtain ⟨⟨⟨hgood, _⟩, _⟩, hvrest⟩ := hv
    have hsnoc : ∀ s ∈ bs ++ [n], goodSeg s = true := by
      intro s hs
      rcases List.mem_append.mp hs with h | h
      · exact hbs s h
      · simp at h
        rw [h]
        exact hgood
    have hhead := H (n, ch) (List.mem_cons_self _ _) (bs ++ [n]) hsnoc
    have ihrest := serializeChildren_eq_of rest
      (fun p hp => H p (List.mem_cons_of_mem _ hp)) hvrest bs hbs
    show serializeAux (pathJoin (strOfPath bs) n) ch ++ serializeChildren (strOfPath bs) rest
        = ((serSeg (bs ++ [n]) ch) ++ serSegChildren bs rest).map
            (fun pe => (strOfPath pe.1, pe.2))
    rw [pathJoin_strOf bs n (fun s hs => goodSeg_ne_empty s (hbs s hs)), hhead, ihrest,
      List.map_append]

theorem serializeAux_eq_serSeg : ∀ ch : FNode, validNodeB ch = true →
    ∀ bs : List String, (∀ s ∈ bs, goodSeg s = true) →
    serializeAux (strOfPath bs) ch
      = (serSeg bs ch).map (fun pe => (strOfPath pe.1, pe.2)) := by
  intro ch
  induction ch using FNode.indOn with
  | hf c => intro _ bs _; rfl
  | hd cs ih =>
    intro hv bs hbs
    have hvc : validChildrenB cs = true := by simpa [validNodeB] using hv
    show (strOfPath bs, SerNode.dirEntry) :: serializeChildren (strOfPath bs) cs
        = ((bs, SerNode.dirEntry) :: serSegChildren bs cs).map
            (fun pe => (strOfPath pe.1, pe.2))
    rw [List.map_cons,
      serializeChildren_eq_of cs
        (fun p hp => ih p hp (validChildrenB_mem cs hvc p hp)) hvc bs hbs]

theorem validChildrenB_names : ∀ (cs : List (String × FNode)),
    validChildrenB cs = true → ∀ p ∈ cs, goodSeg p.1 = true
  | [], _, p, hp => absurd hp (List.not_mem_nil p)
  | (n, ch) :: rest, hv, p, hp => by
    simp only [validChildrenB, Bool.and_eq_true] at hv
    rcases List.mem_cons.mp hp with h | h
    · rw [h]
      exact hv.1.1.1
    · exact validChildrenB_names rest hv.2 p h

theorem mem_serSegChildren : ∀ (cs : List (String × FNode)) (bs : List String)
    (pe : List String × SerNode),
    pe ∈ serSegChildren bs cs → ∃ p ∈ cs, pe ∈ serSeg (bs ++ [p.1]) p.2
  | [], _, pe, h => absurd h (List.not_mem_nil pe)
  | (n, ch) :: rest, bs, pe, h => by
    rw [serSegChildren] at h
    rcases List.mem_append.mp h with h1 | h2
    · exact ⟨(n, ch), List.mem_cons_self _ _, h1⟩
    · obtain ⟨p, hp, hpe⟩ := mem_serSegChildren rest bs pe h2
      exact ⟨p, List.mem_cons_of_mem _ hp, hpe⟩

theorem serSeg_paths : ∀ ch : FNode, validNodeB ch = true →
    ∀ bs : List String, (∀ s ∈ bs, goodSeg s = true) →
    ∀ pe ∈ serSeg bs ch,
      (∃ rel, pe.1 = bs ++ rel) ∧ (∀ s ∈ pe.1, goodSeg s = true) := by
  intro ch
  induction ch using FNode.indOn with
  | hf c =>
    intro _ bs hbs pe hpe
    simp only [serSeg, List.mem_singleton] at hpe
    subst hpe
    exact ⟨⟨[], by simp⟩, hbs⟩
  | hd cs ih =>
    intro hv bs hbs pe hpe
    have hvc : validChildrenB cs = true := by simpa [validNodeB] using hv
    rw [serSeg] at hpe
    rcases List.mem_cons.mp hpe with h | h
    · subst h
      exact ⟨⟨[], by simp⟩, hbs⟩
    · obtain ⟨p, hp, hpe2⟩ := mem_serSegChildren cs bs pe h
      have hgoodn : goodSeg p.1 = true := validChildrenB_names cs hvc p hp
      have hsnoc : ∀ s ∈ bs ++ [p.1], goodSeg s = true := by
        intro s hs
        rcases List.mem_append.mp hs with h1 | h1
        · exact hbs s h1
        · simp at h1
          rw [h1]
          exact hgoodn
      obtain ⟨⟨rel, hrel⟩, hgall⟩ := ih p hp (validChildrenB_mem cs hvc p hp)
        (bs ++ [p.1]) hsnoc pe hpe2
      refine ⟨⟨p.1 :: rel, ?_⟩, hgall⟩
      rw [hrel]
      simp

theorem insertEntries_eq_seg : ∀ (es : List (List String × SerNode)) (t : FNode),
    (∀ pe ∈ es, pe.1 ≠ [] ∧ ∀ s ∈ pe.1, goodSeg s = true) →
    insertEntries t (es.map (fun pe => (strOfPath pe.1, pe.2))) = insertSegEntries t es
  | [], _, _ => rfl
  | (segs, e) :: rest, t, h => by
    have hh := h (segs, e) (List.mem_cons_self _ _)
    have hp := parsePath_strOf segs hh.1 hh.2
    simp only [List.map_cons, insertEntries, insertSegEntries, hp]
    cases hins : insertAt t segs (nodeOfEntry e) with
    | none => rfl
    | some t2 =>
      exact insertEntries_eq_seg rest t2 (fun pe hpe => h pe (List.mem_cons_of_mem _ hpe))

/-! ## The round trip -/

/-- C4: serialization to the flat path-to-entry mapping is a lossless,
order-stable round trip — deserializing the serialization of any valid
tree returns a tree structurally equal to the original. -/
theorem serialize_round_trip : ∀ t : FNode, validTreeB t = true →
    deserialize (serialize t) = some t := by
  intro t hv
  cases t with
  | file c => simp [validTreeB] at hv
  | dir cs =>
    have hvc : validChildrenB cs = true := by simpa [validTreeB] using hv
    show deserialize (serializeAux "/" (.dir cs)) = some (.dir cs)
    have hser : serializeAux "/" (.dir cs)
        = ("/", SerNode.dirEntry) :: serializeChildren "/" cs := rfl
    rw [hser]
    simp only [deserialize, if_pos rfl]
    have hroot : ("/" : String) = strOfPath [] := strOfPath_nil.symm
    rw [hroot,
      serializeChildren_eq_of cs
        (fun p hp => serializeAux_eq_serSeg p.2 (validChildrenB_mem cs hvc p hp))
        hvc [] (fun s hs => absurd hs (List.not_mem_nil s)),
      insertEntries_eq_seg (serSegChildren [] cs) (.dir [])
        (fun pe hpe => by
          obtain ⟨p, hp, hpe2⟩ := mem_serSegChildren cs [] pe hpe
          have hgn : goodSeg p.1 = true := validChildrenB_names cs hvc p hp
          have hbase : ∀ s ∈ ([] : List String) ++ [p.1], goodSeg s = true := by
            intro s hs
            simp at hs
            rw [hs]
            exact hgn
          obtain ⟨⟨rel, hrel⟩, hgall⟩ := serSeg_paths p.2 (validChildrenB_mem cs hvc p hp)
            ([] ++ [p.1]) hbase pe hpe2
          refine ⟨?_, hgall⟩
          rw [hrel]
          simp),
      insert_children_fold cs
        (fun p hp t' bs' ds0' hg' hfr' => by
          obtain ⟨pn, pch⟩ := p
          exact insert_serSeg pch (validChildrenB_mem cs hvc ⟨pn, pch⟩ hp)
            t' bs' pn ds0' hg' hfr')
        hvc (.dir []) [] [] rfl (fun p _ => rfl)]
    rfl

theorem serialize_round_trip_witness :
    deserialize (serialize (FNode.dir [("App.jsx", FNode.file "export default A"),
        ("components", FNode.dir [("Button.jsx", FNode.file "button")])]))
      = some (FNode.dir [("App.jsx", FNode.file "export default A"),
        ("components", FNode.dir [("Button.jsx", FNode.file "button")])]) :=
  serialize_round_trip _ (by decide)

/-! ## Claim theorems about the entry point, alias, preview and rename -/

/-- C2: the designated entry-point file lives at the fixed root path
`/App.jsx`, pinned by the generation prompt as the root file every
project must contain as its entrypoint; preview assembly reports its
absence as a recoverable diagnostic value rather than crashing, and
assembles a bundle whenever it is present. -/
theorem entry_point_contract :
    ("* Every project must have a root /App.jsx file that creates and exports a React component as its default export")
        ∈ generationPromptLines ∧
    ("* Do not create any HTML files, they are not used. The App.jsx file is the entrypoint for the app.")
        ∈ generationPromptLines ∧
    entryPointPath = "/App.jsx" ∧
    (∀ t, readFile t entryPointPath = none → assemblePreview t = .missingEntryPoint) ∧
    (∀ t c, readFile t entryPointPath = some c →
        assemblePreview t = .bundle (fileEntries t)) := by
  refine ⟨by decide, by decide, rfl, ?_, ?_⟩
  · intro t h
    simp [assemblePreview, h]
  · intro t c h
    simp [assemblePreview, h]

theorem entry_point_contract_witness :
    assemblePreview (.dir []) = .missingEntryPoint :=
  entry_point_contract.2.2.2.1 (.dir []) rfl

/-- C3: there is exactly one import-alias configuration — the single
prefix `@/` pinned by the generation prompt, which resolves against the
virtual tree root (so `/components/Calculator.jsx` is imported as
`@/components/Calculator`); specifiers not bearing the prefix receive no
alias resolution. -/
theorem single_alias_resolution :
    importAlias = "@/" ∧
    ("* All imports for non-library files (like React) should use an import alias of '@/'.")
        ∈ generationPromptLines ∧
    ("  * For example, if you create a file at /components/Calculator.jsx, you'd import it into another file with '@/components/Calculator'")
        ∈ generationPromptLines ∧
    resolveAlias "@/components/Calculator" = some "/components/Calculator" ∧
    (∀ s r, resolveAlias s = some r →
        importAlias.data.isPrefixOf s.data = true ∧
        r = "/" ++ String.mk (s.data.drop importAlias.data.length)) ∧
    (∀ s, importAlias.data.isPrefixOf s.data = false → resolveAlias s = none) := by
  refine ⟨rfl, by decide, by decide, by decide, ?_, ?_⟩
  · intro s r h
    rw [resolveAlias] at h
    cases hp : importAlias.data.isPrefixOf s.data with
    | false => rw [hp] at h; simp at h
    | true =>
      rw [hp] at h
      simp at h
      exact ⟨rfl, h.symm⟩
  · intro s h
    rw [resolveAlias, h]
    simp

theorem single_alias_resolution_witness :
    resolveAlias "react" = none :=
  single_alias_resolution.2.2.2.2.2 "react" (by decide)

/-- C6: preview assembly over a file set with no entry-point file returns
the diagnostic `missingEntryPoint` state — a reported value, not a thrown
exception. -/
theorem preview_missing_entry_diagnostic :
    ∀ t : FNode, readFile t entryPointPath = none →
      assemblePreview t = .missingEntryPoint := by
  intro t h
  simp [assemblePreview, h]

theorem preview_missing_entry_diagnostic_witness :
    assemblePreview (.dir [("index.jsx", .file "export default 1")])
      = .missingEntryPoint :=
  preview_missing_entry_diagnostic (.dir [("index.jsx", .file "export default 1")]) rfl

/-- C7: when nodes exist at both the source and the destination path,
`rename` fails with `ConflictError` and returns the tree unchanged, so
the content stored at the source is untouched by the failed operation. -/
theorem rename_conflict_frame :
    ∀ (t : FNode) (a b : String) (sa sb : List String) (na nb : FNode),
      parsePath a = some sa → parsePath b = some sb →
      getAt t sa = some na → getAt t sb = some nb →
      rename t a b = (t, some .conflict) := by
  intro t a b sa sb na nb ha hb hga hgb
  simp [rename, ha, hb, hga, hgb]

/-- C5: `str_replace` fails with `AmbiguousMatchError` and leaves the
file content unchanged whenever the target text occurs zero times or more
than once; with exactly one occurrence, that occurrence is replaced and
the result written back. -/
theorem strReplace_unique_occurrence :
    ∀ (t : FNode) (p old new c : String),
      readFile t p = some c →
      (countOcc old.data c.data ≠ 1 →
        strReplace t p old new = (t, some .ambiguousMatch)) ∧
      (countOcc old.data c.data = 1 →
        ∃ t2, strReplace t p old new = (t2, none) ∧
          readFile t2 p = some (String.mk (replaceFirst old.data new.data c.data))) := by
  intro t p old new c h
  constructor
  · intro hn
    simp [strReplace, h, hn]
  · intro h1
    rw [readFile] at h
    cases hp : parsePath p with
    | none => rw [hp] at h; exact Option.noConfusion h
    | some segs =>
      simp only [hp] at h
      cases hg : getAt t segs with
      | none => simp only [hg] at h; exact Option.noConfusion h
      | some node =>
        cases node with
        | dir cs => simp only [hg] at h; exact Option.noConfusion h
        | file c0 =>
          simp only [hg, Option.some.injEq] at h
          subst h
          obtain ⟨t2, ht2⟩ := setAt_isSome segs t (.file c0)
            (.file (String.mk (replaceFirst old.data new.data c0.data))) hg
          refine ⟨t2, ?_, ?_⟩
          · simp [strReplace, readFile, writeFile, hp, hg, h1, ht2]
          · rw [readFile]
            simp only [hp, getAt_setAt segs t _ t2 ht2]

theorem strReplace_unique_occurrence_witness :
    countOcc "b".data "aba".data = 1 ∧
    (∃ t2, strReplace (.dir [("App.jsx", .file "aba")]) "/App.jsx" "b" "z" = (t2, none) ∧
      readFile t2 "/App.jsx"
        = some (String.mk (replaceFirst "b".data "z".data "aba".data))) :=
  ⟨by decide,
    (strReplace_unique_occurrence (.dir [("App.jsx", .file "aba")])
      "/App.jsx" "b" "z" "aba" rfl).2 (by decide)⟩

theorem rename_conflict_frame_witness :
    rename (.dir [("a.txt", .file "A"), ("b.txt", .file "B")]) "/a.txt" "/b.txt"
      = (.dir [("a.txt", .file "A"), ("b.txt", .file "B")], some .conflict) :=
  rename_conflict_frame (.dir [("a.txt", .file "A"), ("b.txt", .file "B")])
    "/a.txt" "/b.txt" ["a.txt"] ["b.txt"] (.file "A") (.file "B") rfl rfl rfl rfl

end UIGen
